import Mathlib

/-!
Shallow embedding of the `nabot` bot framework (Go) and proofs of its
specified properties.

The embedding follows the source files:
- `nabot.go`       : `App.processUpdate` (the handler-chain dispatch loop);
- `handler.go`     : the `Handler` interface and `ErrPass`;
- `state.go`       : `StateHandler` (state registry, stack persistence,
                     `toState.Go`, `back.Go`, `RegisterAndChainStates`,
                     the in-memory `memoryStateStore`);
- the data-storage file : `memoryStore` (`SetData`/`GetData`/`RemoveData`/
                     `ClearData`).

Go `error` values are modelled explicitly: `nil`, the sentinel `ErrPass`,
and other errors (carried as strings).  The JSON blob persisted by the
state handler is modelled as either a well-formed JSON array of strings or
an unparsable blob (`corrupt`); `json.Marshal` on a `[]string` never fails
and round-trips, which the two-constructor model captures.  Render
callbacks of states are modelled by the outcome they produce, and every
transition records the names of the states whose `Render` it invoked.
-/

namespace Nabot

/-! ### Handler chain and dispatch (`nabot.go`, `handler.go`) -/

/-- The Go `error` result of a handler: `nil` (success), the sentinel
`ErrPass` (decline), or any other error. -/
inductive GoErr where
  | nil
  | pass
  | fail (msg : String)
deriving DecidableEq, Repr

/-- A registered handler: a name (for logging) and its `Handle` behaviour as a
function of the per-update context. -/
structure Handler (C : Type) where
  name : String
  run : C → GoErr

/-- The dispatch loop of `App.processUpdate`: walk the handlers in
registration order; on `ErrPass` continue with the next handler; on any
other outcome stop.  Returns the final value of the loop variables
`(err, handler)` — the last invoked handler's outcome and identity
(`none` when the chain is empty). -/
def runChain {C : Type} : List (Handler C) → C → GoErr × Option (Handler C)
  | [], _ => (.nil, none)
  | h :: rest, ctx =>
    match h.run ctx, rest with
    | .pass, r :: rs => runChain (r :: rs) ctx
    | e, _ => (e, some h)

/-- The handlers actually invoked by `App.processUpdate`, in order: every
handler up to and including the first one that does not return `ErrPass`. -/
def invokedHandlers {C : Type} : List (Handler C) → C → List (Handler C)
  | [], _ => []
  | h :: rest, ctx =>
    match h.run ctx, rest with
    | .pass, r :: rs => h :: invokedHandlers (r :: rs) ctx
    | _, _ => [h]

/-- The logged outcome of `App.processUpdate` after the loop: `err == nil` is
silent success, `errors.Is(err, ErrPass)` is logged as "update was not
handled by any handler" (not an error), anything else is logged as a
failure with the owning handler's name. -/
inductive DispatchRes where
  | success
  | unhandled
  | failure (handlerName : String) (msg : String)
deriving DecidableEq, Repr

/-- The classification `App.processUpdate` performs on the loop result. -/
def classify {C : Type} : GoErr × Option (Handler C) → DispatchRes
  | (.nil, _) => .success
  | (.pass, _) => .unhandled
  | (.fail e, h) =>
    .failure (match h with | some hh => hh.name | none => "<nil>") e

/-! ### State stack machine (`state.go`) -/

instance : DecidableEq (Except String Unit) := fun a b =>
  match a, b with
  | .ok (), .ok () => isTrue rfl
  | .error e, .error f =>
    if h : e = f then isTrue (by rw [h])
    else isFalse (by intro hc; injection hc; contradiction)
  | .ok _, .error _ => isFalse (by intro h; cases h)
  | .error _, .ok _ => isFalse (by intro h; cases h)

/-- A registered state: its `Name()` and the outcome its `Render` callback
produces (`.ok ()` for a nil error, `.error e` otherwise). -/
structure State where
  name : String
  renderRes : Except String Unit
deriving DecidableEq, Repr

/-- The live registry `StateHandler.states`.  The Go map `name → State`
is written only by `RegisterState`, always under key `state.Name()` and
rejecting duplicates, so it is modelled as the list of registered states
looked up by name. -/
def findState (reg : List State) (n : String) : Option State :=
  reg.find? (fun st => st.name == n)

/-- The blob persisted by `StateStorage`: either a well-formed JSON array
of state names (the only thing `setStack` ever writes) or an unparsable
blob. -/
inductive Blob where
  | json (names : List String)
  | corrupt
deriving DecidableEq, Repr

/-- The in-memory `memoryStateStore`: a map from chat key to stored blob. -/
def StoreMap : Type := String → Option Blob

/-- `memoryStateStore.GetStack`: the stored blob, or `ErrStateNotFound` when
the key is absent. -/
def errStateNotFound : String := "state not found"

def getStackStorage (m : StoreMap) (key : String) : Except String Blob :=
  match m key with
  | none => .error errStateNotFound
  | some b => .ok b

/-- `memoryStateStore.SetStack`: store the blob under the chat key,
replacing any existing one (never fails). -/
def setStackStorage (m : StoreMap) (key : String) (b : Blob) : StoreMap :=
  fun k => if k = key then some b else m k

/-- `StateHandler.getStack` composed with the in-memory store:
`ErrStateNotFound` means no active state (`nil, nil`); other storage errors
are wrapped; an unparsable blob is logged and treated as absent
(`nil, nil`); names missing from the registry are filtered out; an empty
filtered result is treated as absent. -/
def getStack (reg : List State) (m : StoreMap) (key : String) :
    Except String (Option (List State)) :=
  match getStackStorage m key with
  | .error e =>
    if e = errStateNotFound then .ok none
    else .error ("failed to get stack: " ++ e)
  | .ok .corrupt => .ok none
  | .ok (.json names) =>
    let result := names.filterMap (findState reg)
    if result.length = 0 then .ok none else .ok (some result)

/-- `StateHandler.setStack` composed with the in-memory store: keep only
registry-known names, marshal, store.  `json.Marshal` on a `[]string`
never fails and `memoryStateStore.SetStack` never fails, so the updated
store is returned directly. -/
def setStack (reg : List State) (m : StoreMap) (key : String)
    (stack : List State) : StoreMap :=
  let names := stack.filterMap
    (fun st => if (findState reg st.name).isSome then some st.name else none)
  setStackStorage m key (.json names)

/-- What `StateHandler.Handle` does with an update: decline (`ErrPass`),
delegate to the top state of the stack, return an error from `getStack`,
or crash on an out-of-bounds access `stack[len(stack)-1]`. -/
inductive HandleRes where
  | passed
  | delegated (st : State)
  | failed (e : String)
  | crash
deriving DecidableEq, Repr

/-- `StateHandler.Handle`: read the stack; a `nil` stack declines; otherwise
control is delegated to `stack[len(stack)-1]`. -/
def shHandle (reg : List State) (m : StoreMap) (key : String) : HandleRes :=
  match getStack reg m key with
  | .error e => .failed e
  | .ok none => .passed
  | .ok (some stack) =>
    match stack.get? (stack.length - 1) with
    | none => .crash
    | some top => .delegated top

/-- The observable result of a `Transition.Go` call: the store after the
call, the names of the states whose `Render` was invoked (in order), and
the returned error. -/
structure GoResult where
  store : StoreMap
  renders : List String
  res : Except String Unit

/-- `toState.Go`: read the stack (`nil` behaves as empty); if the target
state's name already occurs at (first) index `i`, truncate to the first
`i+1` entries, otherwise append the target; persist; then invoke the
target's `Render`, whose outcome becomes the call's result. -/
def toStateGo (reg : List State) (s : State) (m : StoreMap) (key : String) :
    GoResult :=
  match getStack reg m key with
  | .error e => ⟨m, [], .error e⟩
  | .ok ostack =>
    let stack := ostack.getD []
    let stack' :=
      match stack.findIdx? (fun st => st.name == s.name) with
      | some i => stack.take (i + 1)
      | none => stack ++ [s]
    ⟨setStack reg m key stack', [s.name], s.renderRes⟩

/-- `back.Go`: read the stack; an empty (or absent) stack is a no-op
returning `nil`; otherwise drop the top entry, persist, and invoke the new
top state's `Render` if one remains. -/
def backGo (reg : List State) (m : StoreMap) (key : String) : GoResult :=
  match getStack reg m key with
  | .error e => ⟨m, [], .error e⟩
  | .ok ostack =>
    let stack := ostack.getD []
    if stack.length = 0 then ⟨m, [], .ok ()⟩
    else
      let stack' := stack.dropLast
      let m' := setStack reg m key stack'
      match stack'.getLast? with
      | some top => ⟨m', [top.name], top.renderRes⟩
      | none => ⟨m', [], .ok ()⟩

/-- A `Transition` value: either `toState` bound to a target state, or the
`back` transition.  (Transitions hold a pointer to the `StateHandler`; the
registry and store are supplied when `Go` is invoked.) -/
inductive TransitionV where
  | toS (s : State)
  | back
deriving DecidableEq, Repr

/-- `Transition.Go` for either kind of transition. -/
def TransitionV.go : TransitionV → List State → StoreMap → String → GoResult
  | .toS s, reg, m, key => toStateGo reg s m key
  | .back, reg, m, key => backGo reg m key

/-- `StateHandler.RegisterState`: panics (modelled as `.error`) on a name
already registered, otherwise adds the state and returns the `toState`
transition to it. -/
def registerState (reg : List State) (s : State) :
    Except String (List State × TransitionV) :=
  if (findState reg s.name).isSome then
    .error ("a state with name already exists: " ++ s.name)
  else .ok (reg ++ [s], .toS s)

/-- One iteration of the `RegisterAndChainStates` loop (which runs from the
last state to the first): assign the current transition to the state's
`Next()` slot (`none` records "left untouched" for the last state), then
register the state and make the transition to it current.  The
accumulator carries the registry, the current transition, and the `Next()`
assignments of the states processed so far (in list order). -/
def chainStep (st : State)
    (acc : Except String (List State × Option TransitionV × List (Option TransitionV))) :
    Except String (List State × Option TransitionV × List (Option TransitionV)) :=
  match acc with
  | .error e => .error e
  | .ok (reg, t, nexts) =>
    match registerState reg st with
    | .error e => .error e
    | .ok (reg', t') => .ok (reg', some t', t :: nexts)

/-- `StateHandler.RegisterAndChainStates`: panics (modelled as `.error`) on
an empty list; otherwise runs the loop from the last state down to the
first and returns the updated registry, the `Next()` assignments, and the
transition to the first state. -/
def registerAndChainStates (reg : List State) (states : List State) :
    Except String (List State × List (Option TransitionV) × TransitionV) :=
  if states.length = 0 then .error "at least one chainable state required"
  else
    match states.foldr chainStep (.ok (reg, none, [])) with
    | .error e => .error e
    | .ok (_, none, _) => .error "at least one chainable state required"
    | .ok (reg', some t, nexts) => .ok (reg', nexts, t)

/-- The `Next()` wiring `RegisterAndChainStates` is specified to produce:
each state's `next` points to the following state in the list, and the
last state's `next` is left unset. -/
def chainNexts : List State → List (Option TransitionV)
  | [] => []
  | _ :: rest => (rest.head?.map .toS) :: chainNexts rest

/-! ### Per-chat data storage (`memoryStore`) -/

/-- The runtime type of a stored value, checked on read via reflection. -/
inductive Ty where
  | tInt
  | tStr
  | tBool
deriving DecidableEq, Repr

/-- A stored value: the `any` Go values of the claims, each carrying its
runtime type. -/
inductive Val where
  | vInt (n : Int)
  | vStr (s : String)
  | vBool (b : Bool)
deriving DecidableEq, Repr

def Val.ty : Val → Ty
  | .vInt _ => .tInt
  | .vStr _ => .tStr
  | .vBool _ => .tBool

/-- `memoryStore.data`: chat key → (data key → value). -/
def MemStore : Type := String → Option (String → Option Val)

def emptyMemStore : MemStore := fun _ => none

/-- The errors `memoryStore.GetData` can produce: `ErrDataKeyNotFound`, or
the type-mismatch error "stored value of type … is not assignable to …". -/
inductive GetErr where
  | notFound
  | mismatch (stored expected : Ty)
deriving DecidableEq, Repr

/-- `memoryStore.SetData`: `LoadOrStore` the chat's map, then store the
value under the data key. -/
def setData (m : MemStore) (chatKey k : String) (v : Val) : MemStore :=
  let inner := (m chatKey).getD (fun _ => none)
  fun c =>
    if c = chatKey then some (fun key => if key = k then some v else inner key)
    else m c

/-- `memoryStore.GetData`: an absent chat map or data key is
`ErrDataKeyNotFound`; a stored value whose runtime type is not assignable
to the out pointer's type is a distinct type-mismatch error; otherwise the
stored value is written through the pointer. -/
def getData (m : MemStore) (chatKey k : String) (t : Ty) : Except GetErr Val :=
  match m chatKey with
  | none => .error .notFound
  | some inner =>
    match inner k with
    | none => .error .notFound
    | some v => if v.ty = t then .ok v else .error (.mismatch v.ty t)

/-- `memoryStore.RemoveData`: `LoadOrStore` the chat's map, then delete the
data key. -/
def removeData (m : MemStore) (chatKey k : String) : MemStore :=
  let inner := (m chatKey).getD (fun _ => none)
  fun c =>
    if c = chatKey then some (fun key => if key = k then none else inner key)
    else m c

/-- `memoryStore.ClearData`: delete the chat's whole map. -/
def clearData (m : MemStore) (chatKey : String) : MemStore :=
  fun c => if c = chatKey then none else m c

/-! ### Concrete instances used by the witnesses -/

def hPass : Handler Unit := ⟨"pass_handler", fun _ => .pass⟩

def hFail : Handler Unit := ⟨"failing_handler", fun _ => .fail "boom"⟩

def hOk : Handler Unit := ⟨"ok_handler", fun _ => .nil⟩

def stMain : State := ⟨"main", .ok ()⟩

def stQuiz : State := ⟨"quiz", .ok ()⟩

def stBad : State := ⟨"bad", .error "render failed"⟩

def demoReg : List State := [stMain, stQuiz, stBad]

def emptyStore : StoreMap := fun _ => none

def store1 : StoreMap := fun k => if k = "chat" then some (.json ["main"]) else none

def store2 : StoreMap :=
  fun k => if k = "chat" then some (.json ["main", "quiz"]) else none

def storeCorrupt : StoreMap := fun k => if k = "chat" then some .corrupt else none

end Nabot

namespace Nabot

theorem runChain_cons_pass {C : Type} (h : Handler C) (r : Handler C)
    (rs : List (Handler C)) (ctx : C) (hp : h.run ctx = .pass) :
    runChain (h :: r :: rs) ctx = runChain (r :: rs) ctx := by
  simp [runChain, hp]

theorem runChain_cons_stop {C : Type} (h : Handler C) (rest : List (Handler C))
    (ctx : C) (hp : h.run ctx ≠ .pass) :
    runChain (h :: rest) ctx = (h.run ctx, some h) := by
  cases he : h.run ctx with
  | nil => cases rest <;> simp [runChain, he]
  | pass => exact absurd he hp
  | fail e => cases rest <;> simp [runChain, he]

theorem invokedHandlers_cons_pass {C : Type} (h : Handler C) (r : Handler C)
    (rs : List (Handler C)) (ctx : C) (hp : h.run ctx = .pass) :
    invokedHandlers (h :: r :: rs) ctx = h :: invokedHandlers (r :: rs) ctx := by
  simp [invokedHandlers, hp]

theorem invokedHandlers_cons_stop {C : Type} (h : Handler C)
    (rest : List (Handler C)) (ctx : C) (hp : h.run ctx ≠ .pass) :
    invokedHandlers (h :: rest) ctx = [h] := by
  cases he : h.run ctx with
  | nil => cases rest <;> simp [invokedHandlers, he]
  | pass => exact absurd he hp
  | fail e => cases rest <;> simp [invokedHandlers, he]

/-- If every handler of a non-empty chain declines, the loop ends with
`ErrPass` and the dispatch is classified as unhandled. -/
theorem runChain_all_pass {C : Type} (ctx : C) :
    ∀ hs : List (Handler C), hs ≠ [] → (∀ h ∈ hs, h.run ctx = .pass) →
      classify (runChain hs ctx) = .unhandled := by
  intro hs
  induction hs with
  | nil => intro hne; exact absurd rfl hne
  | cons h rest ih =>
    intro _ hall
    have hp : h.run ctx = .pass := hall h (List.mem_cons_self ..)
    cases rest with
    | nil => simp [runChain, hp, classify]
    | cons r rs =>
      rw [runChain_cons_pass h r rs ctx hp]
      exact ih (List.cons_ne_nil r rs) fun x hx => hall x (List.mem_cons_of_mem _ hx)

theorem findState_name_eq {reg : List State} {n : String} {st : State}
    (h : findState reg n = some st) : st.name = n := by
  have := List.find?_some h
  simpa [beq_iff_eq] using this

theorem getStack_absent {reg : List State} {m : StoreMap} {key : String}
    (h : m key = none) : getStack reg m key = .ok none := by
  simp [getStack, getStackStorage, h]

theorem getStack_corrupt {reg : List State} {m : StoreMap} {key : String}
    (h : m key = some .corrupt) : getStack reg m key = .ok none := by
  simp [getStack, getStackStorage, h]

theorem getStack_json {reg : List State} {m : StoreMap} {key : String}
    {names : List String} (h : m key = some (.json names)) :
    getStack reg m key =
      (if (names.filterMap (findState reg)).length = 0 then .ok none
       else .ok (some (names.filterMap (findState reg)))) := by
  simp [getStack, getStackStorage, h]

/-- With the in-memory state store, `getStack` never returns an error. -/
theorem getStack_isOk (reg : List State) (m : StoreMap) (key : String) :
    ∃ o, getStack reg m key = .ok o := by
  cases hmk : m key with
  | none => exact ⟨none, getStack_absent hmk⟩
  | some b =>
    cases b with
    | corrupt => exact ⟨none, getStack_corrupt hmk⟩
    | json names =>
      rw [getStack_json hmk]
      by_cases hl : (names.filterMap (findState reg)).length = 0
      · exact ⟨none, by simp [hl]⟩
      · exact ⟨some (names.filterMap (findState reg)), by simp [hl]⟩

/-- Every state returned by `getStack` is registered under its own name. -/
theorem getStack_mem {reg : List State} {m : StoreMap} {key : String}
    {l : List State} (hget : getStack reg m key = .ok (some l)) :
    ∀ st ∈ l, findState reg st.name = some st := by
  intro st hst
  cases hmk : m key with
  | none => rw [getStack_absent hmk] at hget; simp at hget
  | some b =>
    cases b with
    | corrupt => rw [getStack_corrupt hmk] at hget; simp at hget
    | json names =>
      rw [getStack_json hmk] at hget
      by_cases hl : (names.filterMap (findState reg)).length = 0
      · simp [hl] at hget
      · simp only [hl, if_false, Except.ok.injEq, Option.some.injEq] at hget
        subst hget
        obtain ⟨n, _, hfind⟩ := List.mem_filterMap.mp hst
        rw [findState_name_eq hfind]
        exact hfind

/-- `getStack` never returns an empty non-nil stack. -/
theorem getStack_ne_nil {reg : List State} {m : StoreMap} {key : String}
    {l : List State} (hget : getStack reg m key = .ok (some l)) : l ≠ [] := by
  cases hmk : m key with
  | none => rw [getStack_absent hmk] at hget; simp at hget
  | some b =>
    cases b with
    | corrupt => rw [getStack_corrupt hmk] at hget; simp at hget
    | json names =>
      rw [getStack_json hmk] at hget
      by_cases hl : (names.filterMap (findState reg)).length = 0
      · simp [hl] at hget
      · simp only [hl, if_false, Except.ok.injEq, Option.some.injEq] at hget
        subst hget
        exact fun hnil => hl (by rw [hnil]; rfl)

theorem filterMap_names {reg : List State} :
    ∀ stack : List State, (∀ st ∈ stack, (findState reg st.name).isSome) →
      stack.filterMap
          (fun st => if (findState reg st.name).isSome then some st.name else none)
        = stack.map State.name := by
  intro stack
  induction stack with
  | nil => intro _; rfl
  | cons a t ih =>
    intro h
    have ha := h a (List.mem_cons_self ..)
    have ht := ih fun x hx => h x (List.mem_cons_of_mem _ hx)
    simp [List.filterMap_cons, ha, ht]

theorem setStack_eq {reg : List State} {m : StoreMap} {key : String}
    {stack : List State} (h : ∀ st ∈ stack, (findState reg st.name).isSome) :
    setStack reg m key stack =
      setStackStorage m key (.json (stack.map State.name)) := by
  unfold setStack
  rw [filterMap_names stack h]

theorem findIdx?_some_lt {α : Type} {p : α → Bool} :
    ∀ (l : List α) (j i : Nat), l.findIdx? p j = some i → j ≤ i ∧ i < j + l.length := by
  intro l
  induction l with
  | nil => intro j i h; rw [List.findIdx?_nil] at h; cases h
  | cons a t ih =>
    intro j i h
    rw [List.findIdx?_cons] at h
    by_cases hp : p a = true
    · rw [if_pos hp] at h
      injection h with h
      subst h
      simp only [List.length_cons]
      omega
    · rw [if_neg hp] at h
      have := ih (j + 1) i h
      constructor <;> [omega; (simp only [List.length_cons]; omega)]

/-- Unfolding of `toState.Go` when `getStack` succeeds: the updated stack
(truncate to the first occurrence of the target's name, else append the
target) is persisted as its list of names, the target's `Render` is the
only render invoked, and its outcome is the call's result. -/
theorem toStateGo_spec {reg : List State} {S : State} {m : StoreMap}
    {key : String} {ostack : Option (List State)}
    (hS : findState reg S.name = some S)
    (hget : getStack reg m key = .ok ostack) :
    toStateGo reg S m key =
      ⟨setStackStorage m key (.json
          (match (ostack.getD []).findIdx? (fun st => st.name == S.name) with
           | some i => ((ostack.getD []).take (i + 1)).map State.name
           | none => (ostack.getD []).map State.name ++ [S.name])),
        [S.name], S.renderRes⟩ := by
  have hmem : ∀ st ∈ ostack.getD [], (findState reg st.name).isSome := by
    cases ostack with
    | none => intro st hst; simp at hst
    | some l =>
      intro st hst
      rw [getStack_mem hget st hst]
      rfl
  unfold toStateGo
  rw [hget]
  dsimp only
  cases hidx : (ostack.getD []).findIdx? (fun st => st.name == S.name) with
  | none =>
    have hm : ∀ st ∈ ostack.getD [] ++ [S], (findState reg st.name).isSome := by
      intro st hst
      rcases List.mem_append.mp hst with h1 | h2
      · exact hmem st h1
      · rw [List.mem_singleton.mp h2, hS]; rfl
    dsimp only
    rw [setStack_eq hm]
    simp
  | some i =>
    have hm : ∀ st ∈ (ostack.getD []).take (i + 1),
        (findState reg st.name).isSome :=
      fun st hst => hmem st (List.mem_of_mem_take hst)
    dsimp only
    rw [setStack_eq hm]

/-- Unfolding of `back.Go` on a non-empty stack: the stack minus its top
entry is persisted as its list of names, and the new top state (when one
remains) is the only state rendered, its `Render` outcome becoming the
call's result. -/
theorem backGo_spec {reg : List State} {m : StoreMap} {key : String}
    {l : List State} (hget : getStack reg m key = .ok (some l)) :
    backGo reg m key =
      (match l.dropLast.getLast? with
       | some top =>
         ⟨setStackStorage m key (.json (l.dropLast.map State.name)),
           [top.name], top.renderRes⟩
       | none =>
         ⟨setStackStorage m key (.json (l.dropLast.map State.name)),
           [], .ok ()⟩) := by
  have hne : l ≠ [] := getStack_ne_nil hget
  have hmem : ∀ st ∈ l.dropLast, (findState reg st.name).isSome := by
    intro st hst
    rw [getStack_mem hget st ((List.dropLast_sublist l).subset hst)]
    rfl
  unfold backGo
  rw [hget]
  dsimp only
  simp only [Option.getD_some]
  rw [if_neg (by simpa using hne)]
  simp only [setStack_eq hmem]

theorem findState_eq_none {reg : List State} {n : String} :
    findState reg n = none ↔ ∀ st ∈ reg, st.name ≠ n := by
  simp [findState, List.find?_eq_none]

/-- The names surviving a read are exactly the registered ones, in order. -/
theorem filterMap_findState_names (reg : List State) :
    ∀ names : List String,
      (names.filterMap (findState reg)).map State.name
        = names.filter (fun n => (findState reg n).isSome) := by
  intro names
  induction names with
  | nil => rfl
  | cons n t ih =>
    cases hf : findState reg n with
    | none => simp [List.filterMap_cons, List.filter_cons, hf, ih]
    | some st =>
      simp [List.filterMap_cons, List.filter_cons, hf, ih, findState_name_eq hf]

/-- Reading back the names of states registered under their own name
recovers the same state references. -/
theorem filterMap_map_findState {reg : List State} :
    ∀ l : List State, (∀ st ∈ l, findState reg st.name = some st) →
      (l.map State.name).filterMap (findState reg) = l := by
  intro l
  induction l with
  | nil => intro _; rfl
  | cons a t ih =>
    intro h
    have ha := h a (List.mem_cons_self ..)
    have ht := ih fun x hx => h x (List.mem_cons_of_mem _ hx)
    simp [List.filterMap_cons, ha, ht]

theorem chainNexts_get? :
    ∀ (sts : List State) (i : Nat), i < sts.length →
      (chainNexts sts).get? i = some ((sts.get? (i + 1)).map .toS) := by
  intro sts
  induction sts with
  | nil => intro i hi; simp at hi
  | cons s rest ih =>
    intro i hi
    cases i with
    | zero =>
      have hh : rest.head? = rest.get? 0 := by cases rest <;> rfl
      simp [chainNexts, List.get?_cons_zero, List.get?_cons_succ, hh]
    | succ j =>
      have hj : j < rest.length := by simpa using hi
      simp only [chainNexts, List.get?_cons_succ]
      exact ih j hj

/-- The loop of `RegisterAndChainStates`, run on fresh, distinct names:
registers every state (from the last to the first) and produces the
chained `Next()` assignments. -/
theorem chain_foldr (reg : List State) :
    ∀ sts : List State,
      (∀ st ∈ sts, findState reg st.name = none) →
      (sts.map State.name).Nodup →
      sts.foldr chainStep (.ok (reg, none, [])) =
        .ok (reg ++ sts.reverse, sts.head?.map .toS, chainNexts sts) := by
  intro sts
  induction sts with
  | nil => intro _ _; simp [chainNexts]
  | cons s rest ih =>
    intro hfresh hnodup
    have hnodup' : (rest.map State.name).Nodup := by
      simpa using hnodup.of_cons
    have hrest := ih (fun st hst => hfresh st (List.mem_cons_of_mem _ hst)) hnodup'
    rw [List.foldr_cons, hrest]
    have hnone : findState (reg ++ rest.reverse) s.name = none := by
      rw [findState_eq_none]
      intro st hst
      rcases List.mem_append.mp hst with h1 | h2
      · exact findState_eq_none.mp (hfresh s (List.mem_cons_self ..)) st h1
      · have hmem : st ∈ rest := List.mem_reverse.mp h2
        have hnot : s.name ∉ rest.map State.name := by
          simpa using (List.nodup_cons.mp hnodup).1
        intro hc
        exact hnot (hc ▸ List.mem_map_of_mem State.name hmem)
    simp [chainStep, registerState, hnone, chainNexts, List.reverse_cons,
      List.append_assoc]

theorem runChain_prefix_pass {C : Type} (ctx : C) :
    ∀ (pre : List (Handler C)) (hN : Handler C) (post : List (Handler C)),
      (∀ h ∈ pre, h.run ctx = .pass) → hN.run ctx ≠ .pass →
      runChain (pre ++ hN :: post) ctx = (hN.run ctx, some hN) ∧
      invokedHandlers (pre ++ hN :: post) ctx = pre ++ [hN] := by
  intro pre
  induction pre with
  | nil =>
    intro hN post _ hstop
    simpa using ⟨runChain_cons_stop hN post ctx hstop,
      invokedHandlers_cons_stop hN post ctx hstop⟩
  | cons p pre' ih =>
    intro hN post hpre hstop
    have hp : p.run ctx = .pass := hpre p (List.mem_cons_self ..)
    have hpre' : ∀ h ∈ pre', h.run ctx = .pass :=
      fun x hx => hpre x (List.mem_cons_of_mem _ hx)
    have hne : pre' ++ hN :: post ≠ [] := by
      cases pre' <;> simp
    obtain ⟨r, rs, hrw⟩ : ∃ r rs, pre' ++ hN :: post = r :: rs := by
      cases hlist : pre' ++ hN :: post with
      | nil => exact absurd hlist hne
      | cons r rs => exact ⟨r, rs, rfl⟩
    have ihr := ih hN post hpre' hstop
    constructor
    · rw [List.cons_append, hrw, runChain_cons_pass p r rs ctx hp, ← hrw, ihr.1]
    · rw [List.cons_append, hrw, invokedHandlers_cons_pass p r rs ctx hp, ← hrw,
        ihr.2, List.cons_append]

/-! ### The claims -/

/-- **C1.** Dispatch walks the handler chain in registration order: for
every chain and context, if the handlers before `hN` decline (`ErrPass`)
and `hN` returns any other outcome, the dispatch result is `hN`'s outcome,
handlers after `hN` are never invoked, and if every handler of a chain
declines, the overall result is classified "unhandled" — not an error. -/
theorem claim_dispatch_chain_order {C : Type} (pre post : List (Handler C))
    (hN : Handler C) (ctx : C)
    (hpre : ∀ h ∈ pre, h.run ctx = .pass) (hstop : hN.run ctx ≠ .pass) :
    runChain (pre ++ hN :: post) ctx = (hN.run ctx, some hN) ∧
    invokedHandlers (pre ++ hN :: post) ctx = pre ++ [hN] ∧
    (∀ hs : List (Handler C), hs ≠ [] → (∀ h ∈ hs, h.run ctx = .pass) →
      classify (runChain hs ctx) = .unhandled) :=
  ⟨(runChain_prefix_pass ctx pre hN post hpre hstop).1,
   (runChain_prefix_pass ctx pre hN post hpre hstop).2,
   fun hs hne hall => runChain_all_pass ctx hs hne hall⟩

theorem claim_dispatch_chain_order_witness :
    runChain [hPass, hFail, hOk] () = (.fail "boom", some hFail) ∧
    invokedHandlers [hPass, hFail, hOk] () = [hPass, hFail] ∧
    classify (runChain [hPass] ()) = .unhandled := by
  have h := claim_dispatch_chain_order [hPass] [hOk] hFail ()
    (by
      intro x hx
      rw [List.mem_singleton.mp hx]
      rfl)
    (by intro hc; exact absurd hc (by simp [hFail]))
  exact ⟨h.1, h.2.1,
    h.2.2 [hPass] (by simp)
      (by intro x hx; rw [List.mem_singleton.mp hx]; rfl)⟩

/-- **C2.** For every conversation and registered state `S`, `toState(S).Go`
reads the conversation's stack; if `S`'s name is not on it, the persisted
stack is the old one with `S` appended (last entry `S`, length exactly one
more); if `S`'s name first appears at index `i`, the persisted stack is
the old one truncated to its first `i+1` entries. -/
theorem claim_toState_push_or_truncate (reg : List State) (S : State)
    (m : StoreMap) (key : String) (ostack : Option (List State))
    (hS : findState reg S.name = some S)
    (hget : getStack reg m key = .ok ostack) :
    ((ostack.getD []).findIdx? (fun st => st.name == S.name) = none →
      (toStateGo reg S m key).store key =
        some (.json ((ostack.getD []).map State.name ++ [S.name])) ∧
      ((ostack.getD []).map State.name ++ [S.name]).length
          = (ostack.getD []).length + 1 ∧
      ((ostack.getD []).map State.name ++ [S.name]).getLast? = some S.name) ∧
    (∀ i, (ostack.getD []).findIdx? (fun st => st.name == S.name) = some i →
      (toStateGo reg S m key).store key =
        some (.json (((ostack.getD []).take (i + 1)).map State.name)) ∧
      (((ostack.getD []).take (i + 1)).map State.name).length = i + 1) := by
  have hspec := toStateGo_spec hS hget
  constructor
  · intro hidx
    rw [hspec]
    refine ⟨?_, by simp, List.getLast?_concat _⟩
    simp [setStackStorage, hidx]
  · intro i hidx
    have hlt := (findIdx?_some_lt (ostack.getD []) 0 i hidx).2
    rw [hspec]
    constructor
    · simp [setStackStorage, hidx]
    · simp only [List.length_map, List.length_take]
      omega

theorem claim_toState_push_or_truncate_witness :
    (toStateGo demoReg stQuiz store1 "chat").store "chat"
      = some (.json ["main", "quiz"]) := by
  have h := claim_toState_push_or_truncate demoReg stQuiz store1 "chat"
    (some [stMain]) (by rfl) (by rfl)
  have h1 := h.1 (by rfl)
  simpa [stMain, stQuiz] using h1.1

/-- **C3.** `back.Go` on an empty or absent stack is a no-op: store
unchanged, no render, `nil` result.  On a non-empty stack it persists the
stack minus its top entry and renders the new top state exactly when one
remains; on a single-element stack it persists an empty stack, renders
nothing, and returns `nil`. -/
theorem claim_back_pop (reg : List State) (m : StoreMap) (key : String)
    (ostack : Option (List State))
    (hget : getStack reg m key = .ok ostack) :
    (ostack.getD [] = [] → backGo reg m key = ⟨m, [], .ok ()⟩) ∧
    (∀ l, ostack = some l →
      (backGo reg m key).store key = some (.json (l.dropLast.map State.name)) ∧
      (backGo reg m key).renders = (l.dropLast.getLast?.map State.name).toList ∧
      (∀ a, l = [a] →
        (backGo reg m key).store key = some (.json []) ∧
        (backGo reg m key).renders = [] ∧
        (backGo reg m key).res = .ok ())) := by
  constructor
  · intro hempty
    cases ostack with
    | none =>
      unfold backGo
      rw [hget]
      rfl
    | some l =>
      simp only [Option.getD_some] at hempty
      exact absurd hempty (getStack_ne_nil hget)
  · intro l hl
    subst hl
    have hspec := backGo_spec hget
    refine ⟨?_, ?_, ?_⟩
    · rw [hspec]
      cases hlast : l.dropLast.getLast? <;> simp [setStackStorage]
    · rw [hspec]
      cases hlast : l.dropLast.getLast? <;> simp
    · intro a ha
      subst ha
      rw [hspec]
      simp [setStackStorage]

theorem claim_back_pop_witness :
    (backGo demoReg store2 "chat").store "chat" = some (.json ["main"]) ∧
    (backGo demoReg store2 "chat").renders = ["main"] := by
  have h := (claim_back_pop demoReg store2 "chat" (some [stMain, stQuiz])
    (by rfl)).2 [stMain, stQuiz] rfl
  exact ⟨by simpa [stMain, stQuiz] using h.1, by simpa [stMain, stQuiz] using h.2.1⟩

/-- **C6.** In `toState(S).Go` the stack mutation is persisted before
`S.Render` runs: when the render fails, the error propagates to the caller
while the store already holds the pushed/truncated stack, and `S` is the
state that was rendered. -/
theorem claim_toState_render_no_rollback (reg : List State) (S : State)
    (m : StoreMap) (key : String) (ostack : Option (List State)) (e : String)
    (hS : findState reg S.name = some S)
    (hget : getStack reg m key = .ok ostack)
    (hfail : S.renderRes = .error e) :
    (toStateGo reg S m key).res = .error e ∧
    (toStateGo reg S m key).store key = some (.json
      (match (ostack.getD []).findIdx? (fun st => st.name == S.name) with
       | some i => ((ostack.getD []).take (i + 1)).map State.name
       | none => (ostack.getD []).map State.name ++ [S.name])) ∧
    (toStateGo reg S m key).renders = [S.name] := by
  have hspec := toStateGo_spec hS hget
  rw [hspec]
  refine ⟨hfail, ?_, rfl⟩
  simp [setStackStorage]

theorem claim_toState_render_no_rollback_witness :
    (toStateGo demoReg stBad store1 "chat").res = .error "render failed" ∧
    (toStateGo demoReg stBad store1 "chat").store "chat"
      = some (.json ["main", "bad"]) := by
  have h := claim_toState_render_no_rollback demoReg stBad store1 "chat"
    (some [stMain]) "render failed" (by rfl) (by rfl) (by rfl)
  exact ⟨h.1, by simpa [stMain, stBad] using h.2.1⟩

/-- **C4.** The stack read path never propagates corruption as an error:
with the in-memory store `getStack` always returns `.ok`; an absent blob
means no active state (`StateHandler.Handle` declines); an unparsable blob
is treated as absent with no error; unregistered names are silently
filtered from the result; and a stack emptied by that filtering is treated
as absent. -/
theorem claim_getStack_soft_fail (reg : List State) (m : StoreMap)
    (key : String) :
    (∃ o, getStack reg m key = .ok o) ∧
    (m key = none →
      getStack reg m key = .ok none ∧ shHandle reg m key = .passed) ∧
    (m key = some .corrupt →
      getStack reg m key = .ok none ∧ shHandle reg m key = .passed) ∧
    (∀ names, m key = some (.json names) →
      (∀ l, getStack reg m key = .ok (some l) →
        l.map State.name = names.filter (fun n => (findState reg n).isSome)) ∧
      (names.filterMap (findState reg) = [] →
        getStack reg m key = .ok none)) := by
  refine ⟨getStack_isOk reg m key, ?_, ?_, ?_⟩
  · intro hmk
    have hg := @getStack_absent reg m key hmk
    exact ⟨hg, by unfold shHandle; rw [hg]⟩
  · intro hmk
    have hg := @getStack_corrupt reg m key hmk
    exact ⟨hg, by unfold shHandle; rw [hg]⟩
  · intro names hmk
    constructor
    · intro l hl
      rw [getStack_json hmk] at hl
      by_cases h0 : (names.filterMap (findState reg)).length = 0
      · simp [h0] at hl
      · simp only [h0, if_false, Except.ok.injEq, Option.some.injEq] at hl
        subst hl
        exact filterMap_findState_names reg names
    · intro hemp
      rw [getStack_json hmk, hemp]
      simp

theorem claim_getStack_soft_fail_witness :
    getStack demoReg storeCorrupt "chat" = .ok none ∧
    shHandle demoReg storeCorrupt "chat" = .passed :=
  (claim_getStack_soft_fail demoReg storeCorrupt "chat").2.2.1 (by rfl)

/-- **C5.** Round-trip of the persistence layer: writing a non-empty stack
of currently-registered state references with `setStack` and reading it
back with `getStack` yields the same ordered sequence of references. -/
theorem claim_stack_roundtrip (reg : List State) (l : List State)
    (m : StoreMap) (key : String) (hne : l ≠ [])
    (hreg : ∀ st ∈ l, findState reg st.name = some st) :
    getStack reg (setStack reg m key l) key = .ok (some l) := by
  have hmem : ∀ st ∈ l, (findState reg st.name).isSome :=
    fun st hst => by rw [hreg st hst]; rfl
  rw [setStack_eq hmem]
  have hmk : setStackStorage m key (.json (l.map State.name)) key
      = some (.json (l.map State.name)) := by simp [setStackStorage]
  rw [getStack_json hmk, filterMap_map_findState l hreg]
  simp [List.length_eq_zero, hne]

theorem claim_stack_roundtrip_witness :
    getStack demoReg (setStack demoReg emptyStore "chat" [stMain, stQuiz])
      "chat" = .ok (some [stMain, stQuiz]) :=
  claim_stack_roundtrip demoReg [stMain, stQuiz] emptyStore "chat"
    (by simp) (by intro st hst; fin_cases hst <;> rfl)

/-- **C7.** Data storage key lifecycle: `Get` on a never-`Set` key returns
`NotFound`; `Set` followed by `Get` with a compatible output type returns
exactly the stored value; `Remove` of the key and `Clear` of the
conversation each make a subsequent `Get` return `NotFound`. -/
theorem claim_store_lifecycle (m : MemStore) (ck k : String) (v : Val)
    (t : Ty) :
    getData emptyMemStore ck k t = .error .notFound ∧
    (v.ty = t → getData (setData m ck k v) ck k t = .ok v) ∧
    getData (removeData m ck k) ck k t = .error .notFound ∧
    getData (clearData m ck) ck k t = .error .notFound := by
  refine ⟨rfl, ?_, ?_, ?_⟩
  · intro ht
    simp [getData, setData, ht]
  · simp [getData, removeData]
  · simp [getData, clearData]

theorem claim_store_lifecycle_witness :
    getData emptyMemStore "c" "k" .tInt = .error .notFound ∧
    getData (setData emptyMemStore "c" "k" (.vInt 5)) "c" "k" .tInt
      = .ok (.vInt 5) ∧
    getData (removeData emptyMemStore "c" "k") "c" "k" .tInt
      = .error .notFound ∧
    getData (clearData emptyMemStore "c") "c" "k" .tInt
      = .error .notFound := by
  have h := claim_store_lifecycle emptyMemStore "c" "k" (.vInt 5) .tInt
  exact ⟨h.1, h.2.1 rfl, h.2.2.1, h.2.2.2⟩

/-- **C8.** A stored value whose runtime type is incompatible with the
requested output type makes `Get` fail with a type-mismatch error that is
distinct from `NotFound`. -/
theorem claim_store_type_mismatch (m : MemStore) (ck k : String) (v : Val)
    (t : Ty) (inner : String → Option Val)
    (hck : m ck = some inner) (hk : inner k = some v) (hne : v.ty ≠ t) :
    getData m ck k t = .error (.mismatch v.ty t) ∧
    GetErr.mismatch v.ty t ≠ GetErr.notFound := by
  refine ⟨?_, by simp⟩
  simp [getData, hck, hk, hne]

theorem claim_store_type_mismatch_witness :
    getData (setData emptyMemStore "c" "k" (.vInt 5)) "c" "k" .tStr
      = .error (.mismatch .tInt .tStr) := by
  have h := claim_store_type_mismatch
    (setData emptyMemStore "c" "k" (.vInt 5)) "c" "k" (.vInt 5) .tStr
    (fun key => if key = "k" then some (.vInt 5) else none)
    rfl rfl (by decide)
  exact h.1

/-- **C9.** `RegisterAndChainStates` on a non-empty list of fresh,
distinctly-named states registers them all, wires each state's `next`
slot (for all but the last) to a transition targeting the following state,
leaves the last state's `next` untouched for the caller to set, and
returns a transition to the first state.  In the concrete main/quiz chain
of the quizbot example (where the caller sets quiz's `next`, the chain's
last slot, to the back transition), invoking quiz's `next` from stack
`["main","quiz"]` yields the stack `["main"]` and re-renders `"main"`. -/
theorem claim_register_and_chain (reg : List State) (sts : List State)
    (hfresh : ∀ st ∈ sts, findState reg st.name = none)
    (hnodup : (sts.map State.name).Nodup) :
    (∀ hd, sts.head? = some hd →
      registerAndChainStates reg sts
        = .ok (reg ++ sts.reverse, chainNexts sts, .toS hd)) ∧
    (∀ i, i < sts.length →
      (chainNexts sts).get? i = some ((sts.get? (i + 1)).map .toS)) ∧
    (∀ st ∈ sts, st ∈ reg ++ sts.reverse) ∧
    registerAndChainStates [] [stMain, stQuiz]
      = .ok ([stQuiz, stMain], [some (.toS stQuiz), none], .toS stMain) ∧
    ((TransitionV.toS stQuiz).go [stQuiz, stMain]
        ((TransitionV.toS stMain).go [stQuiz, stMain] emptyStore "chat").store
        "chat").store "chat" = some (.json ["main", "quiz"]) ∧
    (TransitionV.back.go [stQuiz, stMain]
        ((TransitionV.toS stQuiz).go [stQuiz, stMain]
          ((TransitionV.toS stMain).go [stQuiz, stMain] emptyStore "chat").store
          "chat").store "chat").store "chat" = some (.json ["main"]) ∧
    (TransitionV.back.go [stQuiz, stMain]
        ((TransitionV.toS stQuiz).go [stQuiz, stMain]
          ((TransitionV.toS stMain).go [stQuiz, stMain] emptyStore "chat").store
          "chat").store "chat").renders = ["main"] := by
  refine ⟨?_, fun i hi => chainNexts_get? sts i hi,
    fun st hst => List.mem_append.mpr (Or.inr (List.mem_reverse.mpr hst)),
    rfl, rfl, rfl, rfl⟩
  intro hd hhd
  have hf := chain_foldr reg sts hfresh hnodup
  unfold registerAndChainStates
  have hlen : ¬sts.length = 0 := by
    cases sts
    · simp at hhd
    · simp
  rw [if_neg hlen, hf, hhd]
  rfl

theorem claim_register_and_chain_witness :
    registerAndChainStates [] [stMain, stQuiz]
      = .ok ([stQuiz, stMain], [some (.toS stQuiz), none], .toS stMain) := by
  have h := (claim_register_and_chain [] [stMain, stQuiz]
    (by intro st _; rfl) (by decide)).1 stMain rfl
  exact h

/-- **C10.** `getStack` never returns an empty non-nil stack, so the
top-of-stack access in `StateHandler.Handle` is always in bounds (the
handler never crashes) and the handler it delegates to is always a
currently-registered state, registered under its own name. -/
theorem claim_handle_in_bounds (reg : List State) (m : StoreMap)
    (key : String) :
    shHandle reg m key ≠ .crash ∧
    (∀ l, getStack reg m key = .ok (some l) → l ≠ []) ∧
    (∀ st, shHandle reg m key = .delegated st →
      findState reg st.name = some st) := by
  refine ⟨?_, fun l hl => getStack_ne_nil hl, ?_⟩
  · unfold shHandle
    cases hg : getStack reg m key with
    | error e => simp
    | ok o =>
      cases o with
      | none => simp
      | some l =>
        have hne := getStack_ne_nil hg
        have hlt : l.length - 1 < l.length := by
          have := List.length_pos.mpr hne
          omega
        dsimp only
        rw [List.get?_eq_get hlt]
        simp
  · intro st hst
    unfold shHandle at hst
    cases hg : getStack reg m key with
    | error e => rw [hg] at hst; simp at hst
    | ok o =>
      cases o with
      | none => rw [hg] at hst; simp at hst
      | some l =>
        rw [hg] at hst
        have hne := getStack_ne_nil hg
        have hlt : l.length - 1 < l.length := by
          have := List.length_pos.mpr hne
          omega
        dsimp only at hst
        rw [List.get?_eq_get hlt] at hst
        simp only [HandleRes.delegated.injEq] at hst
        subst hst
        exact getStack_mem hg _ (List.get_mem l _ hlt)

theorem claim_handle_in_bounds_witness :
    shHandle demoReg store2 "chat" ≠ .crash ∧
    findState demoReg stQuiz.name = some stQuiz := by
  have h := claim_handle_in_bounds demoReg store2 "chat"
  exact ⟨h.1, h.2.2 stQuiz (by rfl)⟩

end Nabot

